import Mathlib

/-!
Shallow embedding of `src/wireguard_config.rs`: a parser extracting
WireGuard `[Peer]` blocks from a configuration text and building a map
from public key to peer entry.

Rust `&str` values are modelled as `List Char` (`Str`).  Byte-level
operations of the source are reflected at the character level wherever
the two coincide on the executed paths; the single byte-level slice that
can fall inside a multi-byte character (`&line[1..]` in
`from_pound_line_to_key_value`) is tracked separately by an explicit
panic predicate (`pound_line_panics` and its liftings).
-/

namespace WireguardConfig

/-- Rust `&str`, modelled as a list of characters. -/
abbrev Str := List Char

/-- Rust `char::is_whitespace`: the Unicode `White_Space` property,
written out as the explicit set of code points. -/
def rustIsWhitespace (c : Char) : Bool :=
  let n := c.toNat
  n == 0x09 || n == 0x0A || n == 0x0B || n == 0x0C || n == 0x0D || n == 0x20 ||
  n == 0x85 || n == 0xA0 || n == 0x1680 || (0x2000 ≤ n && n ≤ 0x200A) ||
  n == 0x2028 || n == 0x2029 || n == 0x202F || n == 0x205F || n == 0x3000

/-- Rust `str::trim`: drop leading whitespace. -/
def trimStart (s : Str) : Str := s.dropWhile rustIsWhitespace

/-- Rust `str::trim`: drop trailing whitespace. -/
def trimEnd (s : Str) : Str := (s.reverse.dropWhile rustIsWhitespace).reverse

/-- Rust `str::trim`: drop leading and trailing whitespace. -/
def trim (s : Str) : Str := trimEnd (trimStart s)

/-- Character-wise lowercasing.  Rust `str::to_lowercase` performs full
Unicode lowercasing; on the ASCII range (the only range the parser's key
prefixes live in) it is exactly this map, and elsewhere the parser never
inspects the lowercased characters. -/
def rustToLower (c : Char) : Char :=
  if 0x41 ≤ c.toNat ∧ c.toNat ≤ 0x5A then Char.ofNat (c.toNat + 0x20) else c

/-- Rust `str::to_lowercase`, character-wise (see `rustToLower`). -/
def toLowercase (s : Str) : Str := s.map rustToLower

/-- Rust `str::starts_with` on a string pattern. -/
def startsWith (s p : Str) : Bool := p.isPrefixOf s

/-- The loop of `after_char`: the remainder of `s` after the first
occurrence of `c_split`, or `none` when absent. -/
def afterCharGo : Str → Char → Option Str
  | [], _ => none
  | c :: rest, c_split => if c = c_split then some rest else afterCharGo rest c_split

/-- `after_char` from the source: everything after the first occurrence of
`c_split`, or the whole string when `c_split` does not occur. -/
def after_char (s : Str) (c_split : Char) : Str :=
  (afterCharGo s c_split).getD s

/-- `from_pound_line_to_key_value` from the source, on its non-panicking
executions: drop the first character of the line (the source slices
`&line[1..]`, a byte-level operation equal to dropping one character
exactly when the first character is a single byte — see
`pound_line_panics`), find the first `=`, and split there, trimming key
and value. -/
def from_pound_line_to_key_value (line : Str) : Option (Str × Str) :=
  let line := line.drop 1
  match line.findIdx? (· = '=') with
  | some equals_pos => some (trim (line.take equals_pos), trim (line.drop (equals_pos + 1)))
  | none => none

/-- `&line[1..]` in the source panics exactly when byte index 1 is not a
character boundary of `line`: the line is empty, or its first character
occupies more than one byte. -/
def pound_line_panics (line : Str) : Bool :=
  match line with
  | [] => true
  | c :: _ => c.utf8Size ≠ 1

/-- The `PeerEntry` struct of the source. -/
structure PeerEntry where
  public_key : Str
  allowed_ips : Str
  name : Option Str
deriving Repr, DecidableEq

/-- The two variants of `PeerEntryParseError` the parser can produce
(from `exporter_error.rs`, as exercised by `wireguard_config.rs`). -/
inductive PeerEntryParseError where
  | PublicKeyNotFound (lines : List Str)
  | AllowedIPsEntryNotFound (lines : List Str)
deriving Repr, DecidableEq

/-- The literal `"publickey"`. -/
def pkKey : Str := "publickey".toList

/-- The literal `"allowedips"`. -/
def aipKey : Str := "allowedips".toList

/-- The literal `"friendly_name"`. -/
def fnKey : Str := "friendly_name".toList

/-- One iteration of the line loop in `PeerEntry::try_from`, acting on the
accumulator `(public_key, allowed_ips, name)`. -/
def tryFromStep (acc : Str × Str × Option Str) (line : Str) : Str × Str × Option Str :=
  let (public_key, allowed_ips, name) := acc
  let line_lowercase := toLowercase line
  if startsWith line_lowercase pkKey then
    (trim (after_char line '='), allowed_ips, name)
  else if startsWith line_lowercase aipKey then
    (public_key, trim (after_char line '='), name)
  else if startsWith (trim line) ['#'] then
    match from_pound_line_to_key_value line with
    | some (key, value) =>
      if key = fnKey then (public_key, allowed_ips, some value) else acc
    | none => acc
  else acc

/-- The accumulator produced by the line loop of `PeerEntry::try_from`. -/
def accumFields (lines : List Str) : Str × Str × Option Str :=
  lines.foldl tryFromStep ([], [], none)

/-- `PeerEntry::try_from` from the source: run the line loop, then
validate that `public_key` and `allowed_ips` are non-empty.  The owned
copies of the lines captured on the error path are the lines themselves
(the borrowed/owned distinction has no content in this model). -/
def PeerEntry.try_from (lines : List Str) : Except PeerEntryParseError PeerEntry :=
  let acc := accumFields lines
  let public_key := acc.1
  let allowed_ips := acc.2.1
  let name := acc.2.2
  if public_key = [] then
    .error (.PublicKeyNotFound lines)
  else if allowed_ips = [] then
    .error (.AllowedIPsEntryNotFound lines)
  else
    .ok ⟨public_key, allowed_ips, name⟩

/-- `PeerEntry::try_from` panics exactly when the line loop reaches a
line whose trimmed form starts with `#` (and which matched neither key
prefix) whose first character slice `&line[1..]` is not on a character
boundary.  The loop visits every line, so this is an `any` over the
block. -/
def try_from_panics (lines : List Str) : Bool :=
  lines.any (fun line =>
    !startsWith (toLowercase line) pkKey &&
    !startsWith (toLowercase line) aipKey &&
    startsWith (trim line) ['#'] &&
    pound_line_panics line)

/-- Split a string at every `'\n'`; always returns at least one piece. -/
def splitOnNl (s : Str) : List Str :=
  s.foldr
    (fun c acc =>
      match acc with
      | [] => [[c]]
      | g :: gs => if c = '\n' then [] :: g :: gs else (c :: g) :: gs)
    [[]]

/-- Strip one trailing `'\r'` (the carriage return of a `"\r\n"` line
ending). -/
def stripCrEnd (l : Str) : Str :=
  if l.getLast? = some '\r' then l.dropLast else l

/-- Rust `str::lines`: split at `'\n'`, strip a trailing `'\r'` from each
piece that was followed by a `'\n'`, and do not produce a final empty
piece for a trailing line ending. -/
def rustLines (txt : Str) : List Str :=
  let ps := splitOnNl txt
  let front := ps.dropLast.map stripCrEnd
  match ps.getLast? with
  | some [] => front
  | some l => front ++ [l]
  | none => front

/-- The literal `"[Peer]"`. -/
def peerHeader : Str := "[Peer]".toList

/-- One iteration of the line loop of `peer_entry_hashmap_try_from`: the
state is the completed blocks `v_blocks` and the optional open block
`cur_block`. -/
def segStep (st : List (List Str) × Option (List Str)) (line : Str) :
    List (List Str) × Option (List Str) :=
  let (v_blocks, cur_block) := st
  if startsWith line ['['] then
    let v_blocks :=
      match cur_block with
      | some inner => v_blocks ++ [inner]
      | none => v_blocks
    if line = peerHeader then (v_blocks, some []) else (v_blocks, none)
  else
    match cur_block with
    | some inner => if line ≠ [] then (v_blocks, some (inner ++ [line])) else (v_blocks, some inner)
    | none => (v_blocks, none)

/-- After the scan, a still-open block is closed and collected. -/
def finishSeg (st : List (List Str) × Option (List Str)) : List (List Str) :=
  match st with
  | (v_blocks, some b) => v_blocks ++ [b]
  | (v_blocks, none) => v_blocks

/-- The block segmenter of `peer_entry_hashmap_try_from`, acting on the
list of lines. -/
def segmentLines (ls : List Str) : List (List Str) :=
  finishSeg (ls.foldl segStep ([], none))

/-- The blocks `v_blocks` computed by `peer_entry_hashmap_try_from` for a
full input text. -/
def peerBlocks (txt : Str) : List (List Str) :=
  segmentLines (rustLines txt)

/-- The `HashMap<&str, PeerEntry>` of the source, modelled as an
association list with unique keys.  A `HashMap` fixes no iteration
order, so the model only commits to lookup behaviour: `hmInsert`
replaces any binding of the key (Rust `HashMap::insert`). -/
abbrev PeerEntryHashMap := List (Str × PeerEntry)

/-- Rust `HashMap::insert`: bind `k` to `v`, replacing any prior
binding. -/
def hmInsert (hm : PeerEntryHashMap) (k : Str) (v : PeerEntry) : PeerEntryHashMap :=
  hm.filter (fun p => p.1 ≠ k) ++ [(k, v)]

/-- Rust `HashMap::get`. -/
def hmLookup (hm : PeerEntryHashMap) (k : Str) : Option PeerEntry :=
  (hm.find? (fun p => p.1 = k)).map (fun p => p.2)

/-- The final loop of `peer_entry_hashmap_try_from`: build a `PeerEntry`
per block, short-circuiting (`?`) on the first failure, and insert each
success under its `public_key`. -/
def buildHashMap : List (List Str) → PeerEntryHashMap → Except PeerEntryParseError PeerEntryHashMap
  | [], hm => .ok hm
  | b :: bs, hm =>
    match PeerEntry.try_from b with
    | .error e => .error e
    | .ok p => buildHashMap bs (hmInsert hm p.public_key p)

/-- `peer_entry_hashmap_try_from` from the source. -/
def peer_entry_hashmap_try_from (txt : Str) : Except PeerEntryParseError PeerEntryHashMap :=
  buildHashMap (peerBlocks txt) []

/-- Whether the block loop of `peer_entry_hashmap_try_from` panics:
blocks are processed in order, a failing block returns before later
blocks run, and within a block the panic fires while the lines are
scanned, before validation. -/
def blocks_panic : List (List Str) → Bool
  | [] => false
  | b :: bs =>
    if try_from_panics b then true
    else
      match PeerEntry.try_from b with
      | .error _ => false
      | .ok _ => blocks_panic bs

/-- Whether `peer_entry_hashmap_try_from` panics on the given input
text. -/
def parse_panics (txt : Str) : Bool :=
  blocks_panic (peerBlocks txt)

/-- Modelled from the spec (claim C1's characterisation of the block
segmenter): each block is exactly the non-blank lines between a line
equal to `[Peer]` and the next line starting with `[` (or end of
input). -/
def specBlocks : List Str → List (List Str)
  | [] => []
  | l :: rest =>
    if l = peerHeader then
      ((rest.takeWhile (fun x => !startsWith x ['['])).filter (fun x => x ≠ [])) ::
        specBlocks (rest.dropWhile (fun x => !startsWith x ['[']))
    else
      specBlocks rest
termination_by ls => ls.length
decreasing_by
  · exact Nat.lt_succ_of_le (List.dropWhile_sublist _).length_le
  · exact Nat.lt_succ_of_le (Nat.le_refl _)

/-! ### Helper lemmas about the string primitives -/

lemma startsWith_iff_take (s p : Str) : startsWith s p = true ↔ s.take p.length = p := by
  simp only [startsWith, List.isPrefixOf_iff_prefix, List.prefix_iff_eq_take]
  exact eq_comm

lemma startsWith_append_self (p s : Str) : startsWith (p ++ s) p = true := by
  rw [startsWith_iff_take]
  exact List.take_left p s

lemma startsWith_cons (c : Char) (s : Str) (c' : Char) (p : Str) :
    startsWith (c :: s) (c' :: p) = ((c' == c) && startsWith s p) := rfl

lemma startsWith_nil_iff (p : Str) : startsWith [] p = true ↔ p = [] := by
  cases p <;> simp [startsWith, List.isPrefixOf]

lemma eq_cons_of_startsWith_single {s : Str} {c : Char}
    (h : startsWith s [c] = true) : ∃ t, s = c :: t := by
  cases s with
  | nil => simp [startsWith, List.isPrefixOf] at h
  | cons x xs =>
    rw [startsWith_cons] at h
    simp only [Bool.and_eq_true, beq_iff_eq] at h
    exact ⟨xs, by rw [h.1]⟩

lemma toLowercase_append (a b : Str) :
    toLowercase (a ++ b) = toLowercase a ++ toLowercase b :=
  List.map_append _ a b

lemma rustToLower_of_whitespace {c : Char} (h : rustIsWhitespace c = true) :
    rustToLower c = c := by
  simp only [rustIsWhitespace, Bool.or_eq_true, beq_iff_eq, Bool.and_eq_true,
    decide_eq_true_eq] at h
  unfold rustToLower
  rw [if_neg]
  omega

lemma trimEnd_prefix (s : Str) : trimEnd s <+: s := by
  have h := List.dropWhile_suffix (l := s.reverse) rustIsWhitespace
  have h2 := List.reverse_prefix.mpr h
  rwa [List.reverse_reverse] at h2

lemma trimStart_cons_of_not_ws {c : Char} (h : rustIsWhitespace c = false) (l : Str) :
    trimStart (c :: l) = c :: l := by
  simp [trimStart, List.dropWhile_cons, h]

lemma trim_head {line : Str} {c : Char} {t : Str} (h : trim line = c :: t) :
    ∃ u, trimStart line = c :: u := by
  have hpre : trim line <+: trimStart line := trimEnd_prefix (trimStart line)
  rcases hpre with ⟨r, hr⟩
  rw [h] at hr
  exact ⟨t ++ r, by rw [← hr]; simp⟩

lemma trim_ne_nil_of_head_not_ws {c : Char} {l : Str} (h : rustIsWhitespace c = false) :
    trim (c :: l) ≠ [] := by
  rw [trim, trimStart_cons_of_not_ws h]
  intro hnil
  rw [trimEnd] at hnil
  rw [List.reverse_eq_nil_iff, List.dropWhile_eq_nil_iff] at hnil
  have := hnil c (by simp)
  rw [h] at this
  exact Bool.false_ne_true this

lemma pkKey_head : pkKey = 'p' :: "ublickey".toList := rfl

lemma aipKey_head : aipKey = 'a' :: "llowedips".toList := rfl

lemma head_lower_of_startsWith_key {line k : Str} {c : Char}
    (hk : ∃ t, k = c :: t) (h : startsWith (toLowercase line) k = true) :
    ∃ c' t', line = c' :: t' ∧ rustToLower c' = c := by
  rcases hk with ⟨t, rfl⟩
  cases line with
  | nil => simp [toLowercase, startsWith, List.isPrefixOf] at h
  | cons x xs =>
    refine ⟨x, xs, rfl, ?_⟩
    rw [show toLowercase (x :: xs) = rustToLower x :: toLowercase xs from rfl,
      startsWith_cons] at h
    simp only [Bool.and_eq_true, beq_iff_eq] at h
    exact h.1.symm

/-- A line whose trimmed form starts with `#` has `#` as its first
non-whitespace character, so it cannot match a key prefix starting with
a non-`#`, non-whitespace character. -/
lemma comment_not_key_gen {line k : Str} {c : Char} (hk : ∃ t, k = c :: t)
    (hc : c ≠ '#') (hcw : rustIsWhitespace c = false)
    (h : startsWith (trim line) ['#'] = true) :
    startsWith (toLowercase line) k = false := by
  rcases eq_cons_of_startsWith_single h with ⟨t, ht⟩
  rcases trim_head ht with ⟨u, hu⟩
  rw [← Bool.not_eq_true]
  intro hpk
  rcases head_lower_of_startsWith_key hk hpk with ⟨c', t', rfl, hlo⟩
  by_cases hws : rustIsWhitespace c' = true
  · rw [rustToLower_of_whitespace hws] at hlo
    subst hlo
    rw [hws] at hcw
    exact absurd hcw (by simp)
  · rw [trimStart_cons_of_not_ws (Bool.not_eq_true _ ▸ hws)] at hu
    have hc' : c' = '#' := by injection hu
    subst hc'
    apply hc
    rw [← hlo]
    rfl

lemma comment_not_key {line : Str} (h : startsWith (trim line) ['#'] = true) :
    startsWith (toLowercase line) pkKey = false ∧
    startsWith (toLowercase line) aipKey = false :=
  ⟨comment_not_key_gen ⟨_, pkKey_head⟩ (by decide) (by decide) h,
   comment_not_key_gen ⟨_, aipKey_head⟩ (by decide) (by decide) h⟩

/-! ### Helper lemmas about `after_char` -/

lemma afterCharGo_eq_none_iff {s : Str} {c : Char} : afterCharGo s c = none ↔ c ∉ s := by
  induction s with
  | nil => simp [afterCharGo]
  | cons x xs ih =>
    by_cases hx : x = c
    · subst hx; simp [afterCharGo]
    · simp [afterCharGo, hx, ih, Ne.symm hx]

lemma after_char_of_not_mem {s : Str} {c : Char} (h : c ∉ s) : after_char s c = s := by
  rw [after_char, afterCharGo_eq_none_iff.mpr h]
  rfl

lemma afterCharGo_append_of_not_mem {p s : Str} {c : Char} (h : c ∉ p) :
    afterCharGo (p ++ s) c = afterCharGo s c := by
  induction p with
  | nil => rfl
  | cons x xs ih =>
    have hx : x ≠ c := fun he => h (he ▸ List.mem_cons_self x xs)
    rw [List.cons_append, afterCharGo, if_neg hx]
    exact ih (fun hm => h (List.mem_cons_of_mem x hm))

lemma afterCharGo_isSome_of_mem {s : Str} {c : Char} (h : c ∈ s) :
    ∃ r, afterCharGo s c = some r := by
  induction s with
  | nil => cases h
  | cons x xs ih =>
    by_cases hx : x = c
    · exact ⟨xs, by rw [afterCharGo, if_pos hx]⟩
    · rcases ih (List.mem_of_ne_of_mem (Ne.symm hx) h) with ⟨r, hr⟩
      exact ⟨r, by rw [afterCharGo, if_neg hx]; exact hr⟩

lemma after_char_append_of_mem {p s : Str} {c : Char} (hp : c ∉ p) (hs : c ∈ s) :
    after_char (p ++ s) c = after_char s c := by
  rcases afterCharGo_isSome_of_mem hs with ⟨r, hr⟩
  rw [after_char, after_char, afterCharGo_append_of_not_mem hp, hr]
  rfl

/-! ### Bridging `findIdx?` with `takeWhile`/`after_char` -/

lemma findIdx?_eq_split {rest : Str} (h : '=' ∈ rest) :
    ∃ i, rest.findIdx? (fun x => x = '=') = some i ∧
      rest.take i = rest.takeWhile (fun x => x ≠ '=') ∧
      rest.drop (i + 1) = after_char rest '=' := by
  induction rest with
  | nil => cases h
  | cons c r ih =>
    by_cases hc : c = '='
    · refine ⟨0, ?_, ?_, ?_⟩
      · simp [List.findIdx?_cons, hc]
      · subst hc; simp [List.takeWhile_cons]
      · subst hc
        rw [List.drop_succ_cons, List.drop_zero]
        simp [after_char, afterCharGo]
    · have hm : '=' ∈ r := List.mem_of_ne_of_mem (fun he => hc he.symm) h
      rcases ih hm with ⟨i, hi, htake, hdrop⟩
      refine ⟨i + 1, ?_, ?_, ?_⟩
      · rw [List.findIdx?_cons, if_neg (by simp [hc]), List.findIdx?_succ, hi]
        rfl
      · rw [List.take_succ_cons, List.takeWhile_cons_of_pos (by simp [hc]), htake]
      · rw [List.drop_succ_cons, hdrop]
        rcases afterCharGo_isSome_of_mem hm with ⟨r', hr'⟩
        rw [after_char, hr', after_char]
        simp only [afterCharGo, if_neg hc, hr']
        rfl

lemma findIdx?_eq_none_of_not_mem {rest : Str} (h : '=' ∉ rest) :
    rest.findIdx? (fun x => x = '=') = none := by
  rw [List.findIdx?_eq_none_iff]
  intro x hx
  simp only [decide_eq_false_iff_not]
  exact fun he => h (he ▸ hx)

/-! ### Branch lemmas for `tryFromStep` -/

lemma tryFromStep_pk {line : Str} (acc : Str × Str × Option Str)
    (h : startsWith (toLowercase line) pkKey = true) :
    tryFromStep acc line = (trim (after_char line '='), acc.2.1, acc.2.2) := by
  obtain ⟨pk, aip, nm⟩ := acc
  simp only [tryFromStep, h, if_true]

lemma tryFromStep_aip {line : Str} (acc : Str × Str × Option Str)
    (h1 : startsWith (toLowercase line) pkKey = false)
    (h2 : startsWith (toLowercase line) aipKey = true) :
    tryFromStep acc line = (acc.1, trim (after_char line '='), acc.2.2) := by
  obtain ⟨pk, aip, nm⟩ := acc
  simp only [tryFromStep, h1, h2, Bool.false_eq_true, if_false, if_true]

lemma tryFromStep_comment {line : Str} (acc : Str × Str × Option Str)
    (h : startsWith (trim line) ['#'] = true) :
    tryFromStep acc line =
      (match from_pound_line_to_key_value line with
        | some (key, value) =>
          if key = fnKey then (acc.1, acc.2.1, some value) else acc
        | none => acc) := by
  obtain ⟨hpk, haip⟩ := comment_not_key h
  obtain ⟨pk, aip, nm⟩ := acc
  simp only [tryFromStep, hpk, haip, h, Bool.false_eq_true, if_false, if_true]

lemma tryFromStep_other {line : Str} (acc : Str × Str × Option Str)
    (h1 : startsWith (toLowercase line) pkKey = false)
    (h2 : startsWith (toLowercase line) aipKey = false)
    (h3 : startsWith (trim line) ['#'] = false) :
    tryFromStep acc line = acc := by
  obtain ⟨pk, aip, nm⟩ := acc
  simp only [tryFromStep, h1, h2, h3, Bool.false_eq_true, if_false]

lemma tryFromStep_fst_of_not_pk {line : Str} (acc : Str × Str × Option Str)
    (h : startsWith (toLowercase line) pkKey = false) :
    (tryFromStep acc line).1 = acc.1 := by
  obtain ⟨pk, aip, nm⟩ := acc
  simp only [tryFromStep, h, Bool.false_eq_true, if_false]
  by_cases h2 : startsWith (toLowercase line) aipKey = true
  · simp [h2]
  · simp only [Bool.not_eq_true] at h2
    simp only [h2, Bool.false_eq_true, if_false]
    by_cases h3 : startsWith (trim line) ['#'] = true
    · simp only [h3, if_true]
      cases hf : from_pound_line_to_key_value line with
      | none => rfl
      | some kv =>
        obtain ⟨k, v⟩ := kv
        by_cases hk : k = fnKey <;> simp [hk]
    · simp only [Bool.not_eq_true] at h3
      simp [h3]

lemma tryFromStep_aip_snd_of_not_aip {line : Str} (acc : Str × Str × Option Str)
    (h : startsWith (toLowercase line) aipKey = false) :
    (tryFromStep acc line).2.1 = acc.2.1 := by
  obtain ⟨pk, aip, nm⟩ := acc
  simp only [tryFromStep, h, Bool.false_eq_true]
  by_cases h1 : startsWith (toLowercase line) pkKey = true
  · simp [h1]
  · simp only [Bool.not_eq_true] at h1
    simp only [h1, Bool.false_eq_true, if_false]
    by_cases h3 : startsWith (trim line) ['#'] = true
    · simp only [h3, if_true]
      cases hf : from_pound_line_to_key_value line with
      | none => rfl
      | some kv =>
        obtain ⟨k, v⟩ := kv
        by_cases hk : k = fnKey <;> simp [hk]
    · simp only [Bool.not_eq_true] at h3
      simp [h3]

/-! ### The block segmenter matches the spec characterisation -/

lemma specBlocks_nil : specBlocks [] = [] := by rw [specBlocks]

lemma specBlocks_cons (l : Str) (rest : List Str) :
    specBlocks (l :: rest) =
      if l = peerHeader then
        ((rest.takeWhile (fun x => !startsWith x ['['])).filter (fun x => x ≠ [])) ::
          specBlocks (rest.dropWhile (fun x => !startsWith x ['[']))
      else specBlocks rest := by
  rw [specBlocks]

/-- What the remaining scan must produce, as a function of the current
segmenter state. -/
def segExpect (st : List (List Str) × Option (List Str)) (ls : List Str) : List (List Str) :=
  match st with
  | (v, none) => v ++ specBlocks ls
  | (v, some b) =>
    v ++ ((b ++ (ls.takeWhile (fun x => !startsWith x ['['])).filter (fun x => x ≠ [])) ::
      specBlocks (ls.dropWhile (fun x => !startsWith x ['['])))

lemma peerHeader_startsWith : startsWith peerHeader ['['] = true := by decide

lemma segExpect_step (v : List (List Str)) (cur : Option (List Str)) (l : Str) (ls : List Str) :
    segExpect (segStep (v, cur) l) ls = segExpect (v, cur) (l :: ls) := by
  by_cases hb : startsWith l ['['] = true
  · have ht : List.takeWhile (fun x => !startsWith x ['[']) (l :: ls) = [] :=
      List.takeWhile_cons_of_neg (by simp [hb])
    have hd : List.dropWhile (fun x => !startsWith x ['[']) (l :: ls) = l :: ls :=
      List.dropWhile_cons_of_neg (by simp [hb])
    by_cases hp : l = peerHeader
    · subst hp
      cases cur with
      | none =>
        simp only [segStep, peerHeader_startsWith, if_true, if_pos rfl, segExpect,
          specBlocks_cons, if_pos rfl, List.nil_append]
      | some b =>
        simp only [segStep, peerHeader_startsWith, if_true, if_pos rfl, segExpect]
        rw [ht, hd, specBlocks_cons, if_pos rfl]
        simp
    · cases cur with
      | none =>
        simp only [segStep, hb, if_true, if_neg hp, segExpect, specBlocks_cons]
      | some b =>
        simp only [segStep, hb, if_true, if_neg hp, segExpect]
        rw [ht, hd, specBlocks_cons, if_neg hp]
        simp
  · have hp : l ≠ peerHeader := fun he => hb (he ▸ peerHeader_startsWith)
    have hb' : startsWith l ['['] = false := Bool.not_eq_true _ ▸ hb
    have ht : List.takeWhile (fun x => !startsWith x ['[']) (l :: ls) =
        l :: List.takeWhile (fun x => !startsWith x ['[']) ls :=
      List.takeWhile_cons_of_pos (by simp [hb'])
    have hd : List.dropWhile (fun x => !startsWith x ['[']) (l :: ls) =
        List.dropWhile (fun x => !startsWith x ['[']) ls :=
      List.dropWhile_cons_of_pos (by simp [hb'])
    cases cur with
    | none =>
      simp only [segStep, hb', Bool.false_eq_true, if_false, segExpect,
        specBlocks_cons, if_neg hp]
    | some b =>
      by_cases hnil : l = []
      · subst hnil
        simp only [segStep, hb', Bool.false_eq_true, if_false, ne_eq, not_true_eq_false,
          if_false, segExpect]
        rw [ht, hd, List.filter_cons_of_neg (by simp)]
      · simp only [segStep, hb', Bool.false_eq_true, if_false, ne_eq, hnil,
          not_false_eq_true, if_true, segExpect]
        rw [ht, hd, List.filter_cons_of_pos (by simp [hnil])]
        simp

lemma foldl_segStep_eq (ls : List Str) :
    ∀ st, finishSeg (ls.foldl segStep st) = segExpect st ls := by
  induction ls with
  | nil =>
    intro st
    obtain ⟨v, cur⟩ := st
    cases cur with
    | none => simp [finishSeg, segExpect, specBlocks_nil]
    | some b => simp [finishSeg, segExpect, specBlocks_nil]
  | cons l ls ih =>
    intro st
    obtain ⟨v, cur⟩ := st
    rw [List.foldl_cons, ih (segStep (v, cur) l), segExpect_step]

/-! ### Last-match-wins for the accumulated fields -/

lemma elim_getLast?_cons {α β : Type} (f : α → β) (d : β) (a : α) (t : List α) :
    ((a :: t).getLast?).elim d f = (t.getLast?).elim (f a) f := by
  cases t with
  | nil => rfl
  | cons b t =>
    rw [List.getLast?_cons_cons]
    obtain ⟨y, hy⟩ : ∃ y, (b :: t).getLast? = some y := by
      cases h : (b :: t).getLast? with
      | some y => exact ⟨y, rfl⟩
      | none => rw [List.getLast?_eq_none_iff] at h; cases h
    rw [hy]
    rfl

lemma aip_not_pk {l : Str} (h : startsWith (toLowercase l) aipKey = true) :
    startsWith (toLowercase l) pkKey = false := by
  rw [← Bool.not_eq_true]
  intro hp
  rcases head_lower_of_startsWith_key ⟨_, aipKey_head⟩ h with ⟨c, t, he, hc⟩
  rcases head_lower_of_startsWith_key ⟨_, pkKey_head⟩ hp with ⟨c', t', he', hc'⟩
  rw [he] at he'
  injection he' with h1 _
  rw [← h1] at hc'
  rw [hc] at hc'
  exact absurd hc' (by decide)

/-- Whether a block line matches the `publickey` prefix
(case-insensitively). -/
def isPkLine (l : Str) : Bool := startsWith (toLowercase l) pkKey

/-- Whether a block line matches the `allowedips` prefix
(case-insensitively). -/
def isAipLine (l : Str) : Bool := startsWith (toLowercase l) aipKey

/-- Within one block, the last `publickey`-matching line determines the
accumulated `public_key`. -/
lemma accum_pk_last (lines : List Str) :
    ∀ acc : Str × Str × Option Str,
    (lines.foldl tryFromStep acc).1 =
      ((lines.filter isPkLine).getLast?).elim acc.1 (fun l => trim (after_char l '=')) := by
  induction lines with
  | nil => intro acc; rfl
  | cons l ls ih =>
    intro acc
    rw [List.foldl_cons]
    by_cases h : isPkLine l = true
    · rw [List.filter_cons_of_pos h, elim_getLast?_cons, ih (tryFromStep acc l)]
      cases hgl : (ls.filter isPkLine).getLast? with
      | some x => rfl
      | none =>
        simp only [Option.elim_none]
        rw [tryFromStep_pk acc h]
    · rw [List.filter_cons_of_neg (by simp [h]), ih (tryFromStep acc l)]
      cases hgl : (ls.filter isPkLine).getLast? with
      | some x => rfl
      | none =>
        simp only [Option.elim_none]
        exact tryFromStep_fst_of_not_pk acc (Bool.not_eq_true _ ▸ h)

/-- Within one block, the last `allowedips`-matching line determines the
accumulated `allowed_ips`. -/
lemma accum_aip_last (lines : List Str) :
    ∀ acc : Str × Str × Option Str,
    (lines.foldl tryFromStep acc).2.1 =
      ((lines.filter isAipLine).getLast?).elim acc.2.1 (fun l => trim (after_char l '=')) := by
  induction lines with
  | nil => intro acc; rfl
  | cons l ls ih =>
    intro acc
    rw [List.foldl_cons]
    by_cases h : isAipLine l = true
    · rw [List.filter_cons_of_pos h, elim_getLast?_cons, ih (tryFromStep acc l)]
      cases hgl : (ls.filter isAipLine).getLast? with
      | some x => rfl
      | none =>
        simp only [Option.elim_none]
        rw [tryFromStep_aip acc (aip_not_pk h) h]
    · rw [List.filter_cons_of_neg (by simp [h]), ih (tryFromStep acc l)]
      cases hgl : (ls.filter isAipLine).getLast? with
      | some x => rfl
      | none =>
        simp only [Option.elim_none]
        exact tryFromStep_aip_snd_of_not_aip acc (Bool.not_eq_true _ ▸ h)

/-! ### Validation facts about `PeerEntry.try_from` -/

lemma try_from_eq_pk_err {lines : List Str} (h : (accumFields lines).1 = []) :
    PeerEntry.try_from lines = .error (.PublicKeyNotFound lines) := by
  simp only [PeerEntry.try_from]
  rw [if_pos h]

lemma try_from_eq_aip_err {lines : List Str} (h1 : (accumFields lines).1 ≠ [])
    (h2 : (accumFields lines).2.1 = []) :
    PeerEntry.try_from lines = .error (.AllowedIPsEntryNotFound lines) := by
  simp only [PeerEntry.try_from]
  rw [if_neg h1, if_pos h2]

lemma try_from_eq_ok {lines : List Str} (h1 : (accumFields lines).1 ≠ [])
    (h2 : (accumFields lines).2.1 ≠ []) :
    PeerEntry.try_from lines =
      .ok ⟨(accumFields lines).1, (accumFields lines).2.1, (accumFields lines).2.2⟩ := by
  simp only [PeerEntry.try_from]
  rw [if_neg h1, if_neg h2]

lemma try_from_ok_inv {lines : List Str} {p : PeerEntry}
    (h : PeerEntry.try_from lines = .ok p) :
    p.public_key = (accumFields lines).1 ∧ p.allowed_ips = (accumFields lines).2.1 ∧
    p.name = (accumFields lines).2.2 ∧ p.public_key ≠ [] ∧ p.allowed_ips ≠ [] := by
  by_cases h1 : (accumFields lines).1 = []
  · rw [try_from_eq_pk_err h1] at h; cases h
  · by_cases h2 : (accumFields lines).2.1 = []
    · rw [try_from_eq_aip_err h1 h2] at h; cases h
    · rw [try_from_eq_ok h1 h2] at h
      injection h with h'
      rw [← h']
      exact ⟨rfl, rfl, rfl, h1, h2⟩

/-! ### Lookup behaviour of the assembled map -/

lemma find?_filter_of_imp {α : Type} (l : List α) (p q : α → Bool)
    (h : ∀ x, p x = true → q x = true) :
    (l.filter q).find? p = l.find? p := by
  induction l with
  | nil => rfl
  | cons x xs ih =>
    by_cases hq : q x = true
    · rw [List.filter_cons_of_pos hq]
      by_cases hp : p x = true
      · rw [List.find?_cons_of_pos _ hp, List.find?_cons_of_pos _ hp]
      · rw [List.find?_cons_of_neg _ (by simp [hp]), List.find?_cons_of_neg _ (by simp [hp]), ih]
    · rw [List.filter_cons_of_neg (by simp [hq])]
      have hp : ¬ p x = true := fun hp => hq (h x hp)
      rw [List.find?_cons_of_neg _ hp, ih]

lemma find?_key_filter_ne (hm : PeerEntryHashMap) (k : Str) :
    (hm.filter (fun p => p.1 ≠ k)).find? (fun p => p.1 = k) = none := by
  rw [List.find?_eq_none]
  intro x hx
  rw [List.mem_filter] at hx
  simp only [ne_eq, decide_not, Bool.not_eq_eq_eq_not, Bool.not_true,
    decide_eq_false_iff_not] at hx
  simp only [decide_eq_true_eq]
  exact hx.2

lemma hmLookup_insert (hm : PeerEntryHashMap) (k : Str) (v : PeerEntry) (k' : Str) :
    hmLookup (hmInsert hm k v) k' = if k' = k then some v else hmLookup hm k' := by
  unfold hmLookup hmInsert
  rw [List.find?_append]
  by_cases he : k' = k
  · subst he
    rw [find?_key_filter_ne]
    simp
  · rw [if_neg he]
    have h1 : (hm.filter (fun p => p.1 ≠ k)).find? (fun p => p.1 = k') =
        hm.find? (fun p => p.1 = k') := by
      apply find?_filter_of_imp
      intro x hx
      simp only [decide_eq_true_eq] at hx
      simp only [ne_eq, decide_not, Bool.not_eq_eq_eq_not, Bool.not_true,
        decide_eq_false_iff_not]
      rw [hx]
      exact he
    have h2 : List.find? (fun p => p.1 = k') [(k, v)] = none := by
      simp only [List.find?_cons, List.find?_nil]
      have : (decide ((k, v).1 = k')) = false := by
        simp only [decide_eq_false_iff_not]
        exact fun hk => he hk.symm
      rw [this]
    rw [h1, h2, Option.or_none]

lemma mem_hmInsert {hm : PeerEntryHashMap} {k : Str} {v : PeerEntry}
    {kv : Str × PeerEntry} (h : kv ∈ hmInsert hm k v) : kv ∈ hm ∨ kv = (k, v) := by
  unfold hmInsert at h
  rw [List.mem_append] at h
  rcases h with h | h
  · exact Or.inl (List.mem_filter.mp h).1
  · right
    simpa using h

/-- The records successfully built from a list of blocks, in block
order. -/
def okRecords (bs : List (List Str)) : List PeerEntry :=
  bs.filterMap (fun b => (PeerEntry.try_from b).toOption)

lemma buildHashMap_nil (hm0 : PeerEntryHashMap) : buildHashMap [] hm0 = .ok hm0 := rfl

lemma buildHashMap_cons_err {b : List Str} {bs : List (List Str)} {hm0 : PeerEntryHashMap}
    {e : PeerEntryParseError} (h : PeerEntry.try_from b = .error e) :
    buildHashMap (b :: bs) hm0 = .error e := by
  unfold buildHashMap
  rw [h]

lemma buildHashMap_cons_ok {b : List Str} {bs : List (List Str)} {hm0 : PeerEntryHashMap}
    {p : PeerEntry} (h : PeerEntry.try_from b = .ok p) :
    buildHashMap (b :: bs) hm0 = buildHashMap bs (hmInsert hm0 p.public_key p) := by
  conv_lhs => unfold buildHashMap
  rw [h]

lemma buildHashMap_lookup : ∀ (bs : List (List Str)) (hm0 hm : PeerEntryHashMap),
    buildHashMap bs hm0 = .ok hm → ∀ k : Str,
    hmLookup hm k =
      (((okRecords bs).filter (fun r => r.public_key = k)).getLast?).elim
        (hmLookup hm0 k) some := by
  intro bs
  induction bs with
  | nil =>
    intro hm0 hm h k
    rw [buildHashMap_nil] at h
    injection h with h'
    rw [← h']
    rfl
  | cons b bs ih =>
    intro hm0 hm h k
    cases htf : PeerEntry.try_from b with
    | error e => rw [buildHashMap_cons_err htf] at h; cases h
    | ok p =>
      rw [buildHashMap_cons_ok htf] at h
      have hrec : okRecords (b :: bs) = p :: okRecords bs := by
        unfold okRecords
        rw [List.filterMap_cons_some (by rw [htf]; rfl)]
      rw [ih _ hm h k, hrec]
      by_cases hk : p.public_key = k
      · rw [List.filter_cons_of_pos (by simp [hk]), elim_getLast?_cons]
        cases hgl : ((okRecords bs).filter (fun r => r.public_key = k)).getLast? with
        | some x => rfl
        | none =>
          simp only [Option.elim_none]
          rw [hmLookup_insert, if_pos hk.symm]
      · rw [List.filter_cons_of_neg (by simp [hk])]
        cases hgl : ((okRecords bs).filter (fun r => r.public_key = k)).getLast? with
        | some x => rfl
        | none =>
          simp only [Option.elim_none]
          rw [hmLookup_insert, if_neg (fun he => hk he.symm)]

lemma hmInsert_keys_nodup {hm : PeerEntryHashMap}
    (h : (hm.map Prod.fst).Nodup) (k : Str) (v : PeerEntry) :
    ((hmInsert hm k v).map Prod.fst).Nodup := by
  unfold hmInsert
  rw [List.map_append]
  apply List.Nodup.append
  · exact h.sublist ((List.filter_sublist hm).map Prod.fst)
  · simp
  · intro a ha hb
    rw [List.mem_map] at ha
    rcases ha with ⟨x, hx, rfl⟩
    rw [List.mem_filter] at hx
    simp only [ne_eq, decide_not, Bool.not_eq_eq_eq_not, Bool.not_true,
      decide_eq_false_iff_not] at hx
    simp only [List.map_cons, List.map_nil, List.mem_singleton] at hb
    exact hx.2 hb

lemma buildHashMap_keys_nodup : ∀ (bs : List (List Str)) (hm0 hm : PeerEntryHashMap),
    buildHashMap bs hm0 = .ok hm → (hm0.map Prod.fst).Nodup → (hm.map Prod.fst).Nodup := by
  intro bs
  induction bs with
  | nil =>
    intro hm0 hm h h0
    rw [buildHashMap_nil] at h
    injection h with h'
    rwa [← h']
  | cons b bs ih =>
    intro hm0 hm h h0
    cases htf : PeerEntry.try_from b with
    | error e => rw [buildHashMap_cons_err htf] at h; cases h
    | ok p =>
      rw [buildHashMap_cons_ok htf] at h
      exact ih _ hm h (hmInsert_keys_nodup h0 p.public_key p)

lemma buildHashMap_mem_inv : ∀ (bs : List (List Str)) (hm0 hm : PeerEntryHashMap),
    buildHashMap bs hm0 = .ok hm →
    (∀ kv ∈ hm0, kv.2.public_key ≠ [] ∧ kv.2.allowed_ips ≠ [] ∧ kv.1 = kv.2.public_key) →
    ∀ kv ∈ hm, kv.2.public_key ≠ [] ∧ kv.2.allowed_ips ≠ [] ∧ kv.1 = kv.2.public_key := by
  intro bs
  induction bs with
  | nil =>
    intro hm0 hm h h0
    rw [buildHashMap_nil] at h
    injection h with h'
    rwa [← h']
  | cons b bs ih =>
    intro hm0 hm h h0
    cases htf : PeerEntry.try_from b with
    | error e => rw [buildHashMap_cons_err htf] at h; cases h
    | ok p =>
      rw [buildHashMap_cons_ok htf] at h
      apply ih _ hm h
      intro kv hkv
      rcases mem_hmInsert hkv with hkv | hkv
      · exact h0 kv hkv
      · obtain ⟨-, -, -, hpk, haip⟩ := try_from_ok_inv htf
        rw [hkv]
        exact ⟨hpk, haip, rfl⟩

/-! ### Fail-fast behaviour -/

lemma buildHashMap_append_err (bs1 : List (List Str)) :
    ∀ (hm0 : PeerEntryHashMap) (b : List Str) (bs2 : List (List Str))
      (e : PeerEntryParseError),
    (∀ x ∈ bs1, ∃ p, PeerEntry.try_from x = .ok p) →
    PeerEntry.try_from b = .error e →
    buildHashMap (bs1 ++ b :: bs2) hm0 = .error e := by
  induction bs1 with
  | nil =>
    intro hm0 b bs2 e _ hb
    rw [List.nil_append]
    exact buildHashMap_cons_err hb
  | cons x xs ih =>
    intro hm0 b bs2 e hall hb
    rcases hall x (List.mem_cons_self x xs) with ⟨p, hp⟩
    rw [List.cons_append, buildHashMap_cons_ok hp]
    exact ih _ b bs2 e (fun y hy => hall y (List.mem_cons_of_mem x hy)) hb

lemma buildHashMap_err_inv : ∀ (bs : List (List Str)) (hm0 : PeerEntryHashMap)
    (e : PeerEntryParseError),
    buildHashMap bs hm0 = .error e →
    ∃ bs1 b bs2, bs = bs1 ++ b :: bs2 ∧
      (∀ x ∈ bs1, ∃ p, PeerEntry.try_from x = .ok p) ∧
      PeerEntry.try_from b = .error e := by
  intro bs
  induction bs with
  | nil =>
    intro hm0 e h
    rw [buildHashMap_nil] at h
    cases h
  | cons b bs ih =>
    intro hm0 e h
    cases htf : PeerEntry.try_from b with
    | error e' =>
      rw [buildHashMap_cons_err htf] at h
      injection h with he
      refine ⟨[], b, bs, by simp, by simp, ?_⟩
      rw [htf, he]
    | ok p =>
      rw [buildHashMap_cons_ok htf] at h
      rcases ih _ e h with ⟨bs1, b', bs2, hbs, hall, hb'⟩
      refine ⟨b :: bs1, b', bs2, by rw [hbs]; rfl, ?_, hb'⟩
      intro x hx
      rcases List.mem_cons.mp hx with hx | hx
      · exact ⟨p, hx ▸ htf⟩
      · exact hall x hx

/-! ### Remaining helpers for the claim theorems -/

lemma head_not_ws_of_key {line k : Str} {c : Char} (hk : ∃ t, k = c :: t)
    (hcw : rustIsWhitespace c = false) (h : startsWith (toLowercase line) k = true) :
    ∃ c' t', line = c' :: t' ∧ rustIsWhitespace c' = false := by
  rcases head_lower_of_startsWith_key hk h with ⟨c', t', rfl, hc⟩
  refine ⟨c', t', rfl, ?_⟩
  by_cases hws : rustIsWhitespace c' = true
  · rw [rustToLower_of_whitespace hws] at hc
    rw [hc] at hws
    rw [hws] at hcw
    cases hcw
  · exact Bool.not_eq_true _ ▸ hws

lemma trim_ne_nil_of_pk {line : Str} (h : isPkLine line = true) : trim line ≠ [] := by
  rcases head_not_ws_of_key ⟨_, pkKey_head⟩ (by decide) h with ⟨c', t', rfl, hcw⟩
  exact trim_ne_nil_of_head_not_ws hcw

lemma trim_ne_nil_of_aip {line : Str} (h : isAipLine line = true) : trim line ≠ [] := by
  rcases head_not_ws_of_key ⟨_, aipKey_head⟩ (by decide) h with ⟨c', t', rfl, hcw⟩
  exact trim_ne_nil_of_head_not_ws hcw

lemma startsWith_concrete_append_false {A K : Str} (hlen : K.length ≤ A.length)
    (hne : A.take K.length ≠ K) (x : Str) : startsWith (A ++ x) K = false := by
  rw [← Bool.not_eq_true]
  intro h
  rw [startsWith_iff_take, List.take_append_of_le_length hlen] at h
  exact hne h

lemma step_pk_variant {V : Str} (hv : toLowercase V = pkKey) (rest : Str)
    (acc : Str × Str × Option Str) :
    tryFromStep acc (V ++ rest) =
      (trim (after_char (V ++ rest) '='), acc.2.1, acc.2.2) := by
  apply tryFromStep_pk
  rw [toLowercase_append, hv]
  exact startsWith_append_self _ _

lemma step_aip_variant {V : Str} (hv : toLowercase V = aipKey) (rest : Str)
    (acc : Str × Str × Option Str) :
    tryFromStep acc (V ++ rest) =
      (acc.1, trim (after_char (V ++ rest) '='), acc.2.2) := by
  apply tryFromStep_aip
  · rw [toLowercase_append, hv]
    exact startsWith_concrete_append_false (by decide) (by decide) _
  · rw [toLowercase_append, hv]
    exact startsWith_append_self _ _

lemma pound_none {rest : Str} (h : '=' ∉ rest) :
    from_pound_line_to_key_value ('#' :: rest) = none := by
  simp only [from_pound_line_to_key_value, List.drop_succ_cons, List.drop_zero]
  rw [findIdx?_eq_none_of_not_mem h]

lemma pound_some {rest : Str} (h : '=' ∈ rest) :
    from_pound_line_to_key_value ('#' :: rest) =
      some (trim (rest.takeWhile (fun x => x ≠ '=')), trim (after_char rest '=')) := by
  simp only [from_pound_line_to_key_value, List.drop_succ_cons, List.drop_zero]
  rcases findIdx?_eq_split h with ⟨i, hi, htake, hdrop⟩
  rw [hi]
  show some (trim (List.take i rest), trim (List.drop (i + 1) rest)) = _
  rw [htake, hdrop]

/-! ### Claim theorems -/

/-- Claim C1: for every input text, the block segmenter produces the
ordered sequence of blocks in which each block is exactly the non-blank
lines between a line equal to `[Peer]` and the next line starting with
`[` (or end of input); lines outside `[Peer]` sections appear in no
block, blank lines are dropped, and a trailing open `[Peer]` section is
collected (`specBlocks` is that characterisation, written from the
spec). -/
theorem C1_block_segmenter (txt : Str) :
    peerBlocks txt = specBlocks (rustLines txt) := by
  rw [peerBlocks, segmentLines, foldl_segStep_eq]
  simp [segExpect]

/-- Claim C2: the peer record builder fails with `PublicKeyNotFound`
carrying exactly the block's lines when the accumulated public key is
empty; otherwise, with `AllowedIPsEntryNotFound` and the same payload
when the accumulated allowed-ips is empty; otherwise it succeeds.  A
block with zero lines yields `PublicKeyNotFound` with an empty `lines`
list. -/
theorem C2_builder_validation (lines : List Str) :
    ((accumFields lines).1 = [] →
      PeerEntry.try_from lines = .error (.PublicKeyNotFound lines)) ∧
    ((accumFields lines).1 ≠ [] → (accumFields lines).2.1 = [] →
      PeerEntry.try_from lines = .error (.AllowedIPsEntryNotFound lines)) ∧
    ((accumFields lines).1 ≠ [] → (accumFields lines).2.1 ≠ [] →
      PeerEntry.try_from lines =
        .ok ⟨(accumFields lines).1, (accumFields lines).2.1, (accumFields lines).2.2⟩) ∧
    PeerEntry.try_from [] = .error (.PublicKeyNotFound []) :=
  ⟨try_from_eq_pk_err, try_from_eq_aip_err, try_from_eq_ok, try_from_eq_pk_err rfl⟩

/-- Witness for C2: all three validation outcomes at concrete blocks. -/
theorem C2_builder_validation_witness :
    PeerEntry.try_from ["AllowedIPs = b".toList] =
      .error (.PublicKeyNotFound ["AllowedIPs = b".toList]) ∧
    PeerEntry.try_from ["PublicKey = a".toList] =
      .error (.AllowedIPsEntryNotFound ["PublicKey = a".toList]) ∧
    PeerEntry.try_from ["PublicKey = a".toList, "AllowedIPs = b".toList] =
      .ok ⟨(accumFields ["PublicKey = a".toList, "AllowedIPs = b".toList]).1,
           (accumFields ["PublicKey = a".toList, "AllowedIPs = b".toList]).2.1,
           (accumFields ["PublicKey = a".toList, "AllowedIPs = b".toList]).2.2⟩ :=
  ⟨(C2_builder_validation _).1 (by decide),
   (C2_builder_validation _).2.1 (by decide) (by decide),
   (C2_builder_validation _).2.2.1 (by decide) (by decide)⟩

/-- Claim C4: the comment sub-parser returns `none` exactly when the
line after its first character has no `=`; with an `=` it returns the
trimmed pieces around the first `=` (internal whitespace preserved,
empty value allowed), and the three concrete examples of the spec
hold. -/
theorem C4_pound_line_parse (rest : Str) :
    (from_pound_line_to_key_value ('#' :: rest) = none ↔ '=' ∉ rest) ∧
    ('=' ∈ rest →
      from_pound_line_to_key_value ('#' :: rest) =
        some (trim (rest.takeWhile (fun x => x ≠ '=')), trim (after_char rest '='))) ∧
    from_pound_line_to_key_value "#  test  =  This can be tricky  ".toList =
      some ("test".toList, "This can be tricky".toList) ∧
    from_pound_line_to_key_value "#  nasty  =".toList = some ("nasty".toList, []) ∧
    from_pound_line_to_key_value "# ignore".toList = none := by
  refine ⟨⟨?_, pound_none⟩, pound_some, by decide, by decide, by decide⟩
  intro h hm
  rw [pound_some hm] at h
  cases h

/-- Witness for C4: both directions at concrete comment lines. -/
theorem C4_pound_line_parse_witness :
    from_pound_line_to_key_value ('#' :: " a =  b c ".toList) =
      some (trim (" a =  b c ".toList.takeWhile (fun x => x ≠ '=')),
        trim (after_char " a =  b c ".toList '=')) ∧
    from_pound_line_to_key_value ('#' :: " nope".toList) = none :=
  ⟨(C4_pound_line_parse _).2.1 (by decide),
   (C4_pound_line_parse _).1.mpr (by decide)⟩

/-- Counterexample to claim C5: a comment line with leading whitespace
before the `#` does not set the friendly name.  On the block
`["  # friendly_name=x", "PublicKey = a", "AllowedIPs = b"]` the claim
predicts `name = some "x"`, but the builder returns `name = none`
(and the line leaves the accumulator untouched). -/
theorem C5_counterexample :
    PeerEntry.try_from ["  # friendly_name=x".toList, "PublicKey = a".toList,
        "AllowedIPs = b".toList] =
      .ok ⟨"a".toList, "b".toList, none⟩ ∧
    tryFromStep ([], [], none) "  # friendly_name=x".toList = ([], [], none) :=
  ⟨rfl, by decide⟩

/-- Claim C5 as amended: a block line whose trimmed form starts with `#`
is passed to the comment sub-parser, which drops the line's first
character (the `#` only when the `#` is the line's first character) and
splits at the first `=`; `name` is set exactly when the resulting
trimmed key is `friendly_name`.  A line starting directly with `#` sets
the name; a comment line with whitespace before the `#` keeps the `#`
in its key, so `friendly_name` does not match and the accumulator is
unchanged. -/
theorem C5_comment_dispatch (line : Str) (acc : Str × Str × Option Str) :
    (startsWith (trim line) ['#'] = true →
      tryFromStep acc line =
        ((from_pound_line_to_key_value line).elim acc (fun kv =>
          if kv.1 = fnKey then (acc.1, acc.2.1, some kv.2) else acc))) ∧
    tryFromStep acc "# friendly_name=x".toList = (acc.1, acc.2.1, some "x".toList) ∧
    tryFromStep acc "  # friendly_name=x".toList = acc := by
  refine ⟨?_, ?_, ?_⟩
  · intro h
    rw [tryFromStep_comment acc h]
    cases hf : from_pound_line_to_key_value line with
    | none => rfl
    | some kv =>
      obtain ⟨k, v⟩ := kv
      by_cases hk : k = fnKey
      · simp [hk]
      · simp [hk]
  · rw [tryFromStep_comment acc (by decide)]
    have hf : from_pound_line_to_key_value "# friendly_name=x".toList =
        some ("friendly_name".toList, "x".toList) := by decide
    rw [hf]
    rfl
  · rw [tryFromStep_comment acc (by decide)]
    have hf : from_pound_line_to_key_value "  # friendly_name=x".toList =
        some ("# friendly_name".toList, "x".toList) := by decide
    rw [hf]
    have hk : ("# friendly_name".toList = fnKey) = False := by
      simp only [eq_iff_iff, iff_false]
      decide
    show (if "# friendly_name".toList = fnKey then (acc.1, acc.2.1, some "x".toList)
      else acc) = acc
    rw [if_neg (by decide)]

/-- Witness for C5 as amended: the dispatch equation at a concrete
comment line. -/
theorem C5_comment_dispatch_witness :
    tryFromStep ([], [], none) "# a=b".toList =
      ((from_pound_line_to_key_value "# a=b".toList).elim
        (([], [], none) : Str × Str × Option Str)
        (fun kv => if kv.1 = fnKey then ([], [], some kv.2) else ([], [], none))) :=
  (C5_comment_dispatch _ _).1 (by decide)

/-- Claim C10 is a code bug: the comment sub-parser slices `&line[1..]`
byte-wise, and a block line whose first character is a multi-byte
whitespace character (here U+00A0) followed by `#` reaches that slice,
which is not on a character boundary — the parse panics instead of
returning a value. -/
theorem C10_parse_panics :
    pound_line_panics (' ' :: "# friendly_name=x".toList) = true ∧
    parse_panics "[Peer]\n # friendly_name=x\nPublicKey = k\nAllowedIPs = i".toList
      = true := by
  constructor <;> decide

/-- Claim C3: key matching is a case-insensitive prefix match on the key
name only — `publickey`/`PublicKey`/`PUBLICKEY` (and the `allowedips`
analogues) all take the same branch, and the stored value is
`trim (after_char line '=')` computed on the original, uncased line;
when the remainder holds an `=`, all case variants of a key extract the
very same value. -/
theorem C3_case_insensitive_key (rest : Str) (acc : Str × Str × Option Str) :
    (tryFromStep acc ("publickey".toList ++ rest) =
      (trim (after_char ("publickey".toList ++ rest) '='), acc.2.1, acc.2.2)) ∧
    (tryFromStep acc ("PublicKey".toList ++ rest) =
      (trim (after_char ("PublicKey".toList ++ rest) '='), acc.2.1, acc.2.2)) ∧
    (tryFromStep acc ("PUBLICKEY".toList ++ rest) =
      (trim (after_char ("PUBLICKEY".toList ++ rest) '='), acc.2.1, acc.2.2)) ∧
    (tryFromStep acc ("allowedips".toList ++ rest) =
      (acc.1, trim (after_char ("allowedips".toList ++ rest) '='), acc.2.2)) ∧
    (tryFromStep acc ("AllowedIPs".toList ++ rest) =
      (acc.1, trim (after_char ("AllowedIPs".toList ++ rest) '='), acc.2.2)) ∧
    (tryFromStep acc ("ALLOWEDIPS".toList ++ rest) =
      (acc.1, trim (after_char ("ALLOWEDIPS".toList ++ rest) '='), acc.2.2)) ∧
    ('=' ∈ rest →
      trim (after_char ("publickey".toList ++ rest) '=') = trim (after_char rest '=') ∧
      trim (after_char ("PublicKey".toList ++ rest) '=') = trim (after_char rest '=') ∧
      trim (after_char ("PUBLICKEY".toList ++ rest) '=') = trim (after_char rest '=') ∧
      trim (after_char ("allowedips".toList ++ rest) '=') = trim (after_char rest '=') ∧
      trim (after_char ("AllowedIPs".toList ++ rest) '=') = trim (after_char rest '=') ∧
      trim (after_char ("ALLOWEDIPS".toList ++ rest) '=') = trim (after_char rest '=')) := by
  refine ⟨step_pk_variant (by decide) rest acc, step_pk_variant (by decide) rest acc,
    step_pk_variant (by decide) rest acc, step_aip_variant (by decide) rest acc,
    step_aip_variant (by decide) rest acc, step_aip_variant (by decide) rest acc,
    fun h => ⟨?_, ?_, ?_, ?_, ?_, ?_⟩⟩
  all_goals rw [after_char_append_of_mem (by decide) h]

/-- Witness for C3: mixed-case key with a mixed-case value at a concrete
line. -/
theorem C3_case_insensitive_key_witness :
    tryFromStep ([], [], none) ("PublicKey".toList ++ " = AbC".toList) =
      (trim (after_char ("PublicKey".toList ++ " = AbC".toList) '='), [], none) ∧
    trim (after_char ("PUBLICKEY".toList ++ " = AbC".toList) '=') =
      trim (after_char " = AbC".toList '=') :=
  ⟨(C3_case_insensitive_key " = AbC".toList ([], [], none)).2.1,
   ((C3_case_insensitive_key " = AbC".toList ([], [], none)).2.2.2.2.2.2
     (by decide)).2.2.1⟩

/-- Claim C6: last occurrence wins at both levels — within a block the
accumulated `public_key`/`allowed_ips` come from the last matching line,
and across blocks the final mapping binds each public key exactly once,
to the record of the last-parsed block with that key. -/
theorem C6_last_occurrence_wins :
    (∀ lines : List Str,
      (accumFields lines).1 =
        ((lines.filter isPkLine).getLast?).elim [] (fun l => trim (after_char l '=')) ∧
      (accumFields lines).2.1 =
        ((lines.filter isAipLine).getLast?).elim [] (fun l => trim (after_char l '='))) ∧
    (∀ (txt : Str) (hm : PeerEntryHashMap),
      peer_entry_hashmap_try_from txt = .ok hm →
      (hm.map Prod.fst).Nodup ∧
      ∀ k : Str, hmLookup hm k =
        (((okRecords (peerBlocks txt)).filter (fun r => r.public_key = k)).getLast?).elim
          none some) := by
  constructor
  · intro lines
    exact ⟨accum_pk_last lines ([], [], none), accum_aip_last lines ([], [], none)⟩
  · intro txt hm h
    refine ⟨buildHashMap_keys_nodup _ [] hm h (by simp), fun k => ?_⟩
    exact buildHashMap_lookup _ [] hm h k

/-- Witness for C6: duplicate keys within a block and duplicate public
keys across blocks, both resolved to the last occurrence. -/
theorem C6_last_occurrence_wins_witness :
    ((accumFields ["PublicKey = a".toList, "PublicKey = b".toList]).1 =
      (((["PublicKey = a".toList, "PublicKey = b".toList].filter isPkLine).getLast?).elim
        [] (fun l => trim (after_char l '=')))) ∧
    (([("a".toList, (⟨"a".toList, "y".toList, none⟩ : PeerEntry))].map Prod.fst).Nodup) ∧
    (hmLookup [("a".toList, ⟨"a".toList, "y".toList, none⟩)] "a".toList =
      (((okRecords (peerBlocks
          "[Peer]\nPublicKey = a\nAllowedIPs = x\n[Peer]\nPublicKey = a\nAllowedIPs = y".toList)).filter
        (fun r => r.public_key = "a".toList)).getLast?).elim none some) :=
  ⟨(C6_last_occurrence_wins.1 _).1,
   (C6_last_occurrence_wins.2
      "[Peer]\nPublicKey = a\nAllowedIPs = x\n[Peer]\nPublicKey = a\nAllowedIPs = y".toList
      _ rfl).1,
   (C6_last_occurrence_wins.2
      "[Peer]\nPublicKey = a\nAllowedIPs = x\n[Peer]\nPublicKey = a\nAllowedIPs = y".toList
      _ rfl).2 "a".toList⟩

/-- Claim C7: the parse is fail-fast — blocks are built in order, the
first failing block's error is returned unchanged regardless of what
follows, and every failing parse decomposes as a prefix of succeeding
blocks followed by the failing block. -/
theorem C7_fail_fast :
    (∀ (bs1 : List (List Str)) (b : List Str) (bs2 : List (List Str))
        (hm0 : PeerEntryHashMap) (e : PeerEntryParseError),
      (∀ x ∈ bs1, ∃ p, PeerEntry.try_from x = .ok p) →
      PeerEntry.try_from b = .error e →
      buildHashMap (bs1 ++ b :: bs2) hm0 = .error e) ∧
    (∀ (txt : Str) (e : PeerEntryParseError),
      peer_entry_hashmap_try_from txt = .error e →
      ∃ bs1 b bs2, peerBlocks txt = bs1 ++ b :: bs2 ∧
        (∀ x ∈ bs1, ∃ p, PeerEntry.try_from x = .ok p) ∧
        PeerEntry.try_from b = .error e) :=
  ⟨fun bs1 b bs2 hm0 e hall hb => buildHashMap_append_err bs1 hm0 b bs2 e hall hb,
   fun _ e h => buildHashMap_err_inv _ [] e h⟩

/-- Witness for C7: a failing middle block aborts the parse with its own
error even though a well-formed block follows. -/
theorem C7_fail_fast_witness :
    buildHashMap ([["PublicKey = a".toList, "AllowedIPs = x".toList]] ++
        ["PublicKey = c".toList] ::
        [["PublicKey = d".toList, "AllowedIPs = z".toList]]) [] =
      .error (.AllowedIPsEntryNotFound ["PublicKey = c".toList]) :=
  C7_fail_fast.1 _ _ _ [] _
    (fun x hx => by
      rw [List.mem_singleton] at hx
      exact ⟨⟨"a".toList, "x".toList, none⟩, by rw [hx]; rfl⟩)
    rfl

/-- Claim C8: in every successful parse result, each stored record has a
non-empty `public_key` and a non-empty `allowed_ips`, and sits under the
map key equal to its own `public_key`. -/
theorem C8_success_invariant (txt : Str) (hm : PeerEntryHashMap)
    (h : peer_entry_hashmap_try_from txt = .ok hm) :
    ∀ kv ∈ hm, kv.2.public_key ≠ [] ∧ kv.2.allowed_ips ≠ [] ∧ kv.1 = kv.2.public_key :=
  buildHashMap_mem_inv _ [] hm h (fun kv hkv => absurd hkv (List.not_mem_nil kv))

/-- Witness for C8: the invariant at the single entry of a concrete
parse. -/
theorem C8_success_invariant_witness :
    ("a".toList, (⟨"a".toList, "x".toList, none⟩ : PeerEntry)).2.public_key ≠ [] ∧
    ("a".toList, (⟨"a".toList, "x".toList, none⟩ : PeerEntry)).2.allowed_ips ≠ [] ∧
    ("a".toList, (⟨"a".toList, "x".toList, none⟩ : PeerEntry)).1 =
      ("a".toList, (⟨"a".toList, "x".toList, none⟩ : PeerEntry)).2.public_key :=
  C8_success_invariant "[Peer]\nPublicKey = a\nAllowedIPs = x".toList
    [("a".toList, ⟨"a".toList, "x".toList, none⟩)] rfl
    ("a".toList, ⟨"a".toList, "x".toList, none⟩) (by simp)

/-- Claim C9: a line matching a functional key case-insensitively but
containing no `=` makes `after_char` return the whole line, so the field
is set to the whole trimmed line — a non-empty string — and the block is
not reported as missing that field. -/
theorem C9_key_line_without_equals (line : Str) (acc : Str × Str × Option Str)
    (lines : List Str) (l : Str) :
    (isPkLine line = true → '=' ∉ line →
      (tryFromStep acc line).1 = trim line ∧ trim line ≠ []) ∧
    (isAipLine line = true → '=' ∉ line →
      (tryFromStep acc line).2.1 = trim line ∧ trim line ≠ []) ∧
    ((lines.filter isPkLine).getLast? = some l → '=' ∉ l →
      ∀ ls : List Str, PeerEntry.try_from lines ≠ .error (.PublicKeyNotFound ls)) ∧
    ((lines.filter isAipLine).getLast? = some l → '=' ∉ l →
      ∀ ls : List Str, PeerEntry.try_from lines ≠ .error (.AllowedIPsEntryNotFound ls)) := by
  refine ⟨?_, ?_, ?_, ?_⟩
  · intro h1 h2
    rw [tryFromStep_pk acc h1]
    refine ⟨?_, trim_ne_nil_of_pk h1⟩
    show trim (after_char line '=') = trim line
    rw [after_char_of_not_mem h2]
  · intro h1 h2
    rw [tryFromStep_aip acc (aip_not_pk h1) h1]
    refine ⟨?_, trim_ne_nil_of_aip h1⟩
    show trim (after_char line '=') = trim line
    rw [after_char_of_not_mem h2]
  · intro hlast hne ls he
    have hpk : (accumFields lines).1 = trim l := by
      rw [show accumFields lines = lines.foldl tryFromStep ([], [], none) from rfl,
        accum_pk_last lines ([], [], none), hlast, Option.elim_some,
        after_char_of_not_mem hne]
    have hl : isPkLine l = true :=
      (List.mem_filter.mp (List.mem_of_getLast?_eq_some hlast)).2
    have hnn : (accumFields lines).1 ≠ [] := by
      rw [hpk]
      exact trim_ne_nil_of_pk hl
    by_cases h2 : (accumFields lines).2.1 = []
    · rw [try_from_eq_aip_err hnn h2] at he
      injection he with he'
      cases he'
    · rw [try_from_eq_ok hnn h2] at he
      cases he
  · intro hlast hne ls he
    have haip : (accumFields lines).2.1 = trim l := by
      rw [show accumFields lines = lines.foldl tryFromStep ([], [], none) from rfl,
        accum_aip_last lines ([], [], none), hlast, Option.elim_some,
        after_char_of_not_mem hne]
    have hl : isAipLine l = true :=
      (List.mem_filter.mp (List.mem_of_getLast?_eq_some hlast)).2
    have hnn : (accumFields lines).2.1 ≠ [] := by
      rw [haip]
      exact trim_ne_nil_of_aip hl
    by_cases h1 : (accumFields lines).1 = []
    · rw [try_from_eq_pk_err h1] at he
      injection he with he'
      cases he'
    · rw [try_from_eq_ok h1 hnn] at he
      cases he

/-- Witness for C9: a `PublicKey` line with no `=` at all still fills
the field and averts `PublicKeyNotFound`. -/
theorem C9_key_line_without_equals_witness :
    ((tryFromStep ([], [], none) "PublicKeyRaw".toList).1 = trim "PublicKeyRaw".toList ∧
      trim "PublicKeyRaw".toList ≠ []) ∧
    PeerEntry.try_from ["PublicKeyRaw".toList] ≠
      .error (.PublicKeyNotFound ["PublicKeyRaw".toList]) :=
  ⟨(C9_key_line_without_equals "PublicKeyRaw".toList ([], [], none)
      ["PublicKeyRaw".toList] "PublicKeyRaw".toList).1 (by decide) (by decide),
   (C9_key_line_without_equals "PublicKeyRaw".toList ([], [], none)
      ["PublicKeyRaw".toList] "PublicKeyRaw".toList).2.2.1 (by decide) (by decide)
      ["PublicKeyRaw".toList]⟩

end WireguardConfig
